import Mathlib

/-!
# Verification of `pytorchvideo/data/clip_sampling.py`

Shallow embedding of the clip-sampling module: the `ClipInfo` record and the
three sampler strategies (`UniformClipSampler`, `RandomClipSampler`,
`ConstantClipsPerVideoSampler`).  Python floats are modelled as exact
rationals (`ℚ`), Python ints as `ℤ`.  Fallible operations (the `assert` in
`UniformClipSampler.__init__`, the division by `clips_per_video` that raises
`ZeroDivisionError` when it is zero) are modelled with `Option`.
-/

set_option autoImplicit false
set_option linter.unusedVariables false

/-- Embedding of the `ClipInfo` named tuple: clip start/end times in seconds,
clip index, augmentation index, and the last-clip flag. -/
structure ClipInfo where
  clip_start_sec : ℚ
  clip_end_sec : ℚ
  clip_index : ℤ
  aug_index : ℤ
  is_last_clip : Bool
  deriving Repr, DecidableEq

/-- Immutable configuration of `UniformClipSampler` after a successful
`__init__`: `_clip_duration`, `_stride` (already defaulted to `clip_duration`
when the caller passed `None`), `_backpad_last` and `_eps`. -/
structure UniformClipSampler where
  clip_duration : ℚ
  stride : ℚ
  backpad_last : Bool
  eps : ℚ
  deriving Repr, DecidableEq

namespace UniformClipSampler

/-- Embedding of `UniformClipSampler.__init__`: the stride defaults to
`clip_duration` when absent, and the `assert` requires
`0 < stride ∧ stride ≤ clip_duration`; a failed assert (Python
`AssertionError`) is modelled as `none`. -/
def mk? (clip_duration : ℚ) (stride : Option ℚ) (backpad_last : Bool)
    (eps : ℚ) : Option UniformClipSampler :=
  let s := stride.getD clip_duration
  if 0 < s ∧ s ≤ clip_duration then
    some ⟨clip_duration, s, backpad_last, eps⟩
  else
    none

/-- Embedding of `UniformClipSampler._clip_start_end`: start from
`last_clip_time` minus the overlap, clamp at 0, add the clip duration; with
`backpad` the window is pulled back by the overshoot past `video_duration`
and re-clamped. -/
def clip_start_end (c : UniformClipSampler) (last_clip_time video_duration : ℚ)
    (backpad : Bool) : ℚ × ℚ :=
  let clip_start := max (last_clip_time - max 0 (c.clip_duration - c.stride)) 0
  let clip_end := clip_start + c.clip_duration
  if backpad then
    let buffer_amount := max 0 (clip_end - video_duration)
    let clip_start2 := max 0 (clip_start - buffer_amount)
    (clip_start2, clip_start2 + c.clip_duration)
  else
    (clip_start, clip_end)

/-- Embedding of `UniformClipSampler.__call__`.  The mutable
`_current_clip_index` is passed in explicitly and the updated value returned;
the `annotation` argument of the source is unused there and omitted here. -/
def call (c : UniformClipSampler) (current_clip_index : ℤ)
    (last_clip_time video_duration : ℚ) : ClipInfo × ℤ :=
  let se := c.clip_start_end last_clip_time video_duration c.backpad_last
  let next_clip_end := (c.clip_start_end se.2 video_duration c.backpad_last).2
  let is_last_clip :=
    if c.backpad_last then
      decide (|next_clip_end - se.2| < c.eps)
    else
      decide (next_clip_end > video_duration)
  (⟨se.1, se.2, current_clip_index, 0, is_last_clip⟩, current_clip_index + 1)

/-- `last_clip_time` fed into the `n`-th call of the driver loop (the driver
starts at `0.0` and feeds back the previous `clip_end_sec`, which for this
sampler is the second component of `clip_start_end`). -/
def lastTime (c : UniformClipSampler) (video_duration : ℚ) : ℕ → ℚ
  | 0 => 0
  | n + 1 => (c.clip_start_end (c.lastTime video_duration n) video_duration
      c.backpad_last).2

/-- The `ClipInfo` produced by the `n`-th call (0-indexed) of the driver loop
on a fresh sampler, holding `video_duration` fixed. -/
def nth (c : UniformClipSampler) (video_duration : ℚ) (n : ℕ) : ClipInfo :=
  (c.call n (c.lastTime video_duration n) video_duration).1

/-- The `_current_clip_index` of a fresh sampler after `n` calls with
arbitrary input streams `L` (last clip times) and `V` (video durations). -/
def idxAfter (c : UniformClipSampler) (L V : ℕ → ℚ) : ℕ → ℤ
  | 0 => 0
  | n + 1 => (c.call (c.idxAfter L V n) (L n) (V n)).2

end UniformClipSampler

/-- Immutable configuration of `ConstantClipsPerVideoSampler`:
`_clip_duration`, `_clips_per_video` and `_augs_per_clip` (Python ints). -/
structure ConstantClipsPerVideoSampler where
  clip_duration : ℚ
  clips_per_video : ℤ
  augs_per_clip : ℤ
  deriving Repr, DecidableEq

namespace ConstantClipsPerVideoSampler

/-- Embedding of the arithmetic of `ConstantClipsPerVideoSampler.__call__`,
with the mutable pair `(_current_clip_index, _current_aug_index)` passed in
and returned.  The source's `last_clip_time` and `annotation` arguments are
unused there and omitted here.  This is the body that runs when
`clips_per_video ≠ 0`; see `call` for the division-by-zero case. -/
def callCore (c : ConstantClipsPerVideoSampler) (state : ℤ × ℤ)
    (video_duration : ℚ) : ClipInfo × (ℤ × ℤ) :=
  let max_possible_clip_start := max (video_duration - c.clip_duration) 0
  let uniform_clip := max_possible_clip_start / (c.clips_per_video : ℚ)
  let clip_start_sec := uniform_clip * (state.1 : ℚ)
  let next1 : ℤ × ℤ :=
    if state.2 + 1 ≥ c.augs_per_clip then (state.1 + 1, 0)
    else (state.1, state.2 + 1)
  let fires : Bool :=
    decide (next1.1 ≥ c.clips_per_video ∨
      uniform_clip * (next1.1 : ℚ) > max_possible_clip_start)
  (⟨clip_start_sec, clip_start_sec + c.clip_duration, state.1, state.2, fires⟩,
   (if fires then 0 else next1.1, next1.2))

/-- Embedding of `ConstantClipsPerVideoSampler.__call__` including its one
fallible operation: `max_possible_clip_start / self._clips_per_video` raises
`ZeroDivisionError` when `clips_per_video == 0`, modelled as `none`. -/
def call (c : ConstantClipsPerVideoSampler) (state : ℤ × ℤ)
    (video_duration : ℚ) : Option (ClipInfo × (ℤ × ℤ)) :=
  if c.clips_per_video = 0 then none else some (c.callCore state video_duration)

/-- The counter pair after `n` calls starting from `s0`, holding
`video_duration` fixed. -/
def stateFrom (c : ConstantClipsPerVideoSampler) (s0 : ℤ × ℤ)
    (video_duration : ℚ) : ℕ → ℤ × ℤ
  | 0 => s0
  | n + 1 => (c.callCore (c.stateFrom s0 video_duration n) video_duration).2

/-- The `ClipInfo` produced by the `n`-th call (0-indexed) on a fresh
instance, holding `video_duration` fixed. -/
def nth (c : ConstantClipsPerVideoSampler) (video_duration : ℚ) (n : ℕ) :
    ClipInfo :=
  (c.callCore (c.stateFrom (0, 0) video_duration n) video_duration).1

end ConstantClipsPerVideoSampler

/-- Immutable configuration of `RandomClipSampler`: only `_clip_duration`. -/
structure RandomClipSampler where
  clip_duration : ℚ
  deriving Repr, DecidableEq

/-- Embedding of `RandomClipSampler.__call__`.  `random.uniform(0, m)` is
modelled as `0 + (m - 0) * u` where `u` is the value drawn by the underlying
unit random source (`random.random()`, a value in `[0, 1]`).
`last_clip_time` and the annotation argument (`ann`) are accepted and unused,
exactly as in the source. -/
def RandomClipSampler.call {α : Type} (c : RandomClipSampler)
    (last_clip_time video_duration : ℚ) (ann : α) (u : ℚ) : ClipInfo :=
  let max_possible_clip_start := max (video_duration - c.clip_duration) 0
  let clip_start_sec := 0 + (max_possible_clip_start - 0) * u
  ⟨clip_start_sec, clip_start_sec + c.clip_duration, 0, 0, true⟩

/-- The per-call division bound used by the `ConstantClipsPerVideoSampler`
floating-point guard: scaling `m / q` by any factor `x ≤ q` never exceeds a
nonnegative `m`. -/
lemma div_mul_le_self_of_le (m q x : ℚ) (hm : 0 ≤ m) (hq : 0 < q)
    (hx : x ≤ q) : m / q * x ≤ m := by
  calc m / q * x ≤ m / q * q := mul_le_mul_of_nonneg_left hx (div_nonneg hm hq.le)
    _ = m := div_mul_cancel₀ _ hq.ne'

/-- One step of `ConstantClipsPerVideoSampler` from a reachable counter pair
`(ci, a)` with `ci < clips_per_video` and `a < augs_per_clip`: the output
repeats the current position, the floating-point guard never fires, and the
counters advance odometer-style. -/
lemma constant_callCore_at (d v : ℚ) (k p : ℕ) (hk : 1 ≤ k) (hp : 1 ≤ p)
    (ci a : ℕ) (hci : ci < p) (ha : a < k) :
    ConstantClipsPerVideoSampler.callCore ⟨d, (p : ℤ), (k : ℤ)⟩
        ((ci : ℤ), (a : ℤ)) v =
      (⟨max (v - d) 0 / ((p : ℤ) : ℚ) * (((ci : ℤ) : ℤ) : ℚ),
        max (v - d) 0 / ((p : ℤ) : ℚ) * (((ci : ℤ) : ℤ) : ℚ) + d,
        (ci : ℤ), (a : ℤ), decide (a + 1 = k ∧ ci + 1 = p)⟩,
       ((if a + 1 = k then (if ci + 1 = p then 0 else (ci : ℤ) + 1)
         else (ci : ℤ)),
        (if a + 1 = k then 0 else (a : ℤ) + 1))) := by
  have hm : (0 : ℚ) ≤ max (v - d) 0 := le_max_right _ _
  have hp0 : (0 : ℚ) < ((p : ℤ) : ℚ) := by exact_mod_cast hp
  unfold ConstantClipsPerVideoSampler.callCore
  dsimp only
  by_cases hak : (a : ℤ) + 1 ≥ (k : ℤ)
  · have hak' : a + 1 = k := by
      have h1 : a + 1 ≥ k := by exact_mod_cast hak
      omega
    rw [if_pos hak, if_pos hak']
    dsimp only
    by_cases hcp : (ci : ℤ) + 1 ≥ (p : ℤ)
    · have hcp' : ci + 1 = p := by
        have h1 : ci + 1 ≥ p := by exact_mod_cast hcp
        omega
      have hf : decide ((ci : ℤ) + 1 ≥ ((p : ℕ) : ℤ) ∨
          max (v - d) 0 / ((p : ℤ) : ℚ) * (((ci : ℤ) + 1 : ℤ) : ℚ) >
            max (v - d) 0) = true :=
        decide_eq_true (Or.inl hcp)
      rw [hf, if_pos hcp', if_pos rfl, decide_eq_true ⟨hak', hcp'⟩, if_pos hak']
    · have hcp' : ¬ (ci + 1 = p) := fun h => hcp (by exact_mod_cast h.ge)
      have hxle : (((ci : ℤ) + 1 : ℤ) : ℚ) ≤ ((p : ℤ) : ℚ) :=
        by exact_mod_cast le_of_lt (lt_of_not_ge hcp)
      have hf : decide ((ci : ℤ) + 1 ≥ ((p : ℕ) : ℤ) ∨
          max (v - d) 0 / ((p : ℤ) : ℚ) * (((ci : ℤ) + 1 : ℤ) : ℚ) >
            max (v - d) 0) = false :=
        decide_eq_false (by
          rintro (h | h)
          · exact hcp h
          · exact absurd h
              (not_lt.mpr (div_mul_le_self_of_le _ _ _ hm hp0 hxle)))
      rw [hf, if_neg hcp', if_neg Bool.false_ne_true,
        decide_eq_false (fun h => hcp' h.2), if_pos hak']
  · have hak' : ¬ (a + 1 = k) := fun h => hak (by exact_mod_cast h.ge)
    rw [if_neg hak, if_neg hak']
    dsimp only
    have hcilt : (ci : ℤ) < (p : ℤ) := by exact_mod_cast hci
    have hxle : (((ci : ℤ) : ℤ) : ℚ) ≤ ((p : ℤ) : ℚ) := by
      exact_mod_cast hcilt.le
    have hf : decide ((ci : ℤ) ≥ ((p : ℕ) : ℤ) ∨
        max (v - d) 0 / ((p : ℤ) : ℚ) * (((ci : ℤ) : ℤ) : ℚ) >
          max (v - d) 0) = false :=
      decide_eq_false (by
        rintro (h | h)
        · exact absurd hcilt (not_lt.mpr h)
        · exact absurd h
            (not_lt.mpr (div_mul_le_self_of_le _ _ _ hm hp0 hxle)))
    rw [hf, if_neg Bool.false_ne_true,
      decide_eq_false (fun h => hak' h.1), if_neg hak']

/-- Division/modulus of a successor when the remainder does not wrap. -/
lemma nat_succ_div_mod_lt {n k : ℕ} (hk : 0 < k) (h : n % k + 1 < k) :
    (n + 1) / k = n / k ∧ (n + 1) % k = n % k + 1 := by
  have hd := Nat.div_add_mod n k
  have hc : k * (n / k) = (n / k) * k := Nat.mul_comm _ _
  have h1 : n + 1 = (n % k + 1) + (n / k) * k := by omega
  constructor
  · rw [h1, Nat.add_mul_div_right _ _ hk, Nat.div_eq_of_lt h, Nat.zero_add]
  · rw [h1, Nat.add_mul_mod_self_right, Nat.mod_eq_of_lt h]

/-- Division/modulus of a successor when the remainder wraps to zero. -/
lemma nat_succ_div_mod_eq {n k : ℕ} (hk : 0 < k) (h : n % k + 1 = k) :
    (n + 1) / k = n / k + 1 ∧ (n + 1) % k = 0 := by
  have hd := Nat.div_add_mod n k
  have hc : k * (n / k) = (n / k) * k := Nat.mul_comm _ _
  have hm : (n / k + 1) * k = (n / k) * k + k := by
    rw [Nat.add_mul, Nat.one_mul]
  have h1 : n + 1 = (n / k + 1) * k := by omega
  constructor
  · rw [h1, Nat.mul_div_cancel _ hk]
  · rw [h1, Nat.mul_mod_left]

/-- Closed form of the `ConstantClipsPerVideoSampler` counters on a fresh
instance with positive configuration: after `n` calls the clip counter is
`(n / k) % p` and the augmentation counter is `n % k`. -/
lemma constant_stateFrom_closed (d v : ℚ) (k p : ℕ) (hk : 1 ≤ k)
    (hp : 1 ≤ p) (n : ℕ) :
    ConstantClipsPerVideoSampler.stateFrom ⟨d, (p : ℤ), (k : ℤ)⟩ (0, 0) v n =
      ((((n / k) % p : ℕ) : ℤ), ((n % k : ℕ) : ℤ)) := by
  induction n with
  | zero => simp [ConstantClipsPerVideoSampler.stateFrom]
  | succ m ih =>
      rw [ConstantClipsPerVideoSampler.stateFrom, ih,
        constant_callCore_at d v k p hk hp _ _ (Nat.mod_lt _ (by omega))
          (Nat.mod_lt _ (by omega))]
      dsimp only
      by_cases hmk : m % k + 1 = k
      · obtain ⟨hdv, hmd⟩ := nat_succ_div_mod_eq (by omega) hmk
        by_cases hmp : (m / k) % p + 1 = p
        · obtain ⟨_, hq⟩ := nat_succ_div_mod_eq (n := m / k) (by omega) hmp
          rw [if_pos hmk, if_pos hmp, if_pos hmk, hdv, hq, hmd]
          simp
        · have hlt : (m / k) % p + 1 < p := by
            have := Nat.mod_lt (m / k) (y := p) (by omega)
            omega
          obtain ⟨_, hq⟩ := nat_succ_div_mod_lt (n := m / k) (by omega) hlt
          rw [if_pos hmk, if_neg hmp, if_pos hmk, hdv, hq, hmd,
            Prod.mk.injEq]
          exact ⟨by push_cast; try ring, by push_cast; try ring⟩
      · have hlt : m % k + 1 < k := by
          have := Nat.mod_lt m (y := k) (by omega)
          omega
        obtain ⟨hdv, hmd⟩ := nat_succ_div_mod_lt (by omega) hlt
        rw [if_neg hmk, if_neg hmk, hdv, hmd, Prod.mk.injEq]
        exact ⟨by push_cast; try ring, by push_cast; try ring⟩

/-- Closed form of the `n`-th output of a fresh `ConstantClipsPerVideoSampler`
with positive configuration: the position is `(n / k) % p` scaled by the
uniform step, the augmentation view is `n % k`, and `is_last_clip` fires
exactly when both counters are about to wrap. -/
lemma constant_nth_closed (d v : ℚ) (k p : ℕ) (hk : 1 ≤ k) (hp : 1 ≤ p)
    (n : ℕ) :
    ConstantClipsPerVideoSampler.nth ⟨d, (p : ℤ), (k : ℤ)⟩ v n =
      ⟨max (v - d) 0 / (p : ℚ) * (((n / k) % p : ℕ) : ℚ),
       max (v - d) 0 / (p : ℚ) * (((n / k) % p : ℕ) : ℚ) + d,
       (((n / k) % p : ℕ) : ℤ), ((n % k : ℕ) : ℤ),
       decide (n % k + 1 = k ∧ (n / k) % p + 1 = p)⟩ := by
  rw [ConstantClipsPerVideoSampler.nth,
    constant_stateFrom_closed d v k p hk hp n,
    constant_callCore_at d v k p hk hp _ _ (Nat.mod_lt _ (by omega))
      (Nat.mod_lt _ (by omega))]
  dsimp only
  have h1 : (((p : ℤ)) : ℚ) = (p : ℚ) := by push_cast; ring
  have h2 : ((((n / k) % p : ℕ) : ℤ) : ℚ) = (((n / k) % p : ℕ) : ℚ) :=
    Int.cast_natCast _
  rw [h1, h2]

/-- Claim C1: every `UniformClipSampler` call computes the returned interval
as `clip_start = max(last_clip_time - max(0, clip_duration - stride), 0)` and
`clip_end = clip_start + clip_duration`; when `backpad_last` is set the start
is additionally shifted back by `buffer = max(0, clip_end - video_duration)`,
clamped to be `≥ 0`, and the end recomputed as `clip_start + clip_duration`. -/
theorem uniform_interval_formula (c : UniformClipSampler) (i : ℤ)
    (l v : ℚ) :
    ((c.call i l v).1.clip_start_sec, (c.call i l v).1.clip_end_sec) =
      (if c.backpad_last then
        (max 0 (max (l - max 0 (c.clip_duration - c.stride)) 0 -
            max 0 (max (l - max 0 (c.clip_duration - c.stride)) 0 +
              c.clip_duration - v)),
         max 0 (max (l - max 0 (c.clip_duration - c.stride)) 0 -
            max 0 (max (l - max 0 (c.clip_duration - c.stride)) 0 +
              c.clip_duration - v)) + c.clip_duration)
      else
        (max (l - max 0 (c.clip_duration - c.stride)) 0,
         max (l - max 0 (c.clip_duration - c.stride)) 0 + c.clip_duration)) := by
  cases hb : c.backpad_last <;>
    simp [UniformClipSampler.call, UniformClipSampler.clip_start_end, hb]

/-- Claim C2: every `UniformClipSampler` call decides `is_last_clip` by
re-running the same start/end computation with the current `clip_end` as
`last_clip_time`, obtaining a hypothetical `next_clip_end`; with
`backpad_last` it is last iff `|next_clip_end - clip_end| < eps`, otherwise
iff the unclamped `next_clip_end` exceeds `video_duration`. -/
theorem uniform_is_last_formula (c : UniformClipSampler) (i : ℤ) (l v : ℚ) :
    (c.call i l v).1.is_last_clip =
      (if c.backpad_last then
        decide (|(c.clip_start_end
            ((c.clip_start_end l v true).2) v true).2 -
            (c.clip_start_end l v true).2| < c.eps)
      else
        decide ((c.clip_start_end
            ((c.clip_start_end l v false).2) v false).2 > v)) := by
  cases hb : c.backpad_last <;> simp [UniformClipSampler.call, hb]

/-- Claim C9: `UniformClipSampler` never resets its clip counter: whatever
the input streams, the `n`-th call (0-indexed) sees counter `n`, returns
`clip_index = n` and `aug_index = 0`, and leaves the counter at `n + 1`. -/
theorem uniform_index_monotone (c : UniformClipSampler) (L V : ℕ → ℚ)
    (n : ℕ) :
    c.idxAfter L V n = n ∧
      (c.call (c.idxAfter L V n) (L n) (V n)).1.clip_index = n ∧
      (c.call (c.idxAfter L V n) (L n) (V n)).1.aug_index = 0 ∧
      (c.call (c.idxAfter L V n) (L n) (V n)).2 = n + 1 := by
  have h : ∀ m : ℕ, c.idxAfter L V m = m := by
    intro m
    induction m with
    | zero => rfl
    | succ k ih => simp [UniformClipSampler.idxAfter, ih, UniformClipSampler.call]
  refine ⟨h n, ?_, rfl, ?_⟩ <;> simp [h n, UniformClipSampler.call]

/-- Claim C10: constructing a `UniformClipSampler` fails exactly when the
effective stride (the given stride, else `clip_duration`) is outside
`(0, clip_duration]`; on success the stored stride is the effective stride
and satisfies `0 < stride ≤ clip_duration`. -/
theorem uniform_init_validation (d : ℚ) (st : Option ℚ) (b : Bool) (e : ℚ) :
    (UniformClipSampler.mk? d st b e = none ↔
      ¬(0 < st.getD d ∧ st.getD d ≤ d)) ∧
      (∀ c : UniformClipSampler, UniformClipSampler.mk? d st b e = some c →
        c.stride = st.getD d ∧ 0 < c.stride ∧ c.stride ≤ d) := by
  constructor
  · unfold UniformClipSampler.mk?
    by_cases h : 0 < st.getD d ∧ st.getD d ≤ d <;> simp [h]
  · intro c hc
    unfold UniformClipSampler.mk? at hc
    by_cases h : 0 < st.getD d ∧ st.getD d ≤ d
    · simp only [h, if_pos] at hc
      cases hc
      exact ⟨rfl, h.1, h.2⟩
    · simp [h] at hc

/-- Claim C4: for a fresh `ConstantClipsPerVideoSampler` with
`augs_per_clip = k ≥ 1` and fixed `video_duration`, the `j`-th run of `k`
consecutive calls returns identical `clip_start_sec` and `clip_index`
(those of the run's first call, namely position `j % clips_per_video`) while
`aug_index` enumerates `0, …, k - 1` in order. -/
theorem constant_grouping (d v : ℚ) (k p : ℕ) (hk : 1 ≤ k) (hp : 1 ≤ p)
    (j i : ℕ) (hi : i < k) :
    (ConstantClipsPerVideoSampler.nth ⟨d, (p : ℤ), (k : ℤ)⟩ v
        (j * k + i)).aug_index = (i : ℤ) ∧
    (ConstantClipsPerVideoSampler.nth ⟨d, (p : ℤ), (k : ℤ)⟩ v
        (j * k + i)).clip_index =
      (ConstantClipsPerVideoSampler.nth ⟨d, (p : ℤ), (k : ℤ)⟩ v
        (j * k)).clip_index ∧
    (ConstantClipsPerVideoSampler.nth ⟨d, (p : ℤ), (k : ℤ)⟩ v
        (j * k + i)).clip_start_sec =
      (ConstantClipsPerVideoSampler.nth ⟨d, (p : ℤ), (k : ℤ)⟩ v
        (j * k)).clip_start_sec ∧
    (ConstantClipsPerVideoSampler.nth ⟨d, (p : ℤ), (k : ℤ)⟩ v
        (j * k + i)).clip_index = ((j % p : ℕ) : ℤ) := by
  have h1 : (j * k + i) % k = i := by
    rw [Nat.add_comm, Nat.add_mul_mod_self_right, Nat.mod_eq_of_lt hi]
  have h2 : (j * k + i) / k = j := by
    rw [Nat.add_comm, Nat.add_mul_div_right _ _ (by omega : 0 < k),
      Nat.div_eq_of_lt hi, Nat.zero_add]
  have h3 : (j * k) % k = 0 := Nat.mul_mod_left j k
  have h4 : (j * k) / k = j := Nat.mul_div_cancel j (by omega)
  rw [constant_nth_closed d v k p hk hp (j * k + i),
    constant_nth_closed d v k p hk hp (j * k), h1, h2, h3, h4]
  exact ⟨rfl, rfl, rfl, rfl⟩

/-- Witness for C4 at `clip_duration = 1`, `video_duration = 7`,
`augs_per_clip = 2`, `clips_per_video = 3`, run `j = 4`, call `i = 1`. -/
theorem constant_grouping_witness :
    ((1 : ℕ) ≤ 2 ∧ (1 : ℕ) ≤ 3 ∧ (1 : ℕ) < 2) ∧
    ((ConstantClipsPerVideoSampler.nth ⟨1, (3 : ℤ), (2 : ℤ)⟩ 7
        (4 * 2 + 1)).aug_index = (1 : ℤ) ∧
     (ConstantClipsPerVideoSampler.nth ⟨1, (3 : ℤ), (2 : ℤ)⟩ 7
        (4 * 2 + 1)).clip_index =
       (ConstantClipsPerVideoSampler.nth ⟨1, (3 : ℤ), (2 : ℤ)⟩ 7
        (4 * 2)).clip_index ∧
     (ConstantClipsPerVideoSampler.nth ⟨1, (3 : ℤ), (2 : ℤ)⟩ 7
        (4 * 2 + 1)).clip_start_sec =
       (ConstantClipsPerVideoSampler.nth ⟨1, (3 : ℤ), (2 : ℤ)⟩ 7
        (4 * 2)).clip_start_sec ∧
     (ConstantClipsPerVideoSampler.nth ⟨1, (3 : ℤ), (2 : ℤ)⟩ 7
        (4 * 2 + 1)).clip_index = ((4 % 3 : ℕ) : ℤ)) :=
  ⟨by decide, constant_grouping 1 7 2 3 (by decide) (by decide) 4 1 (by decide)⟩

/-- Claim C5: with `clips_per_video = p ≥ 1` and `augs_per_clip = k ≥ 1`, on a
fresh `ConstantClipsPerVideoSampler` the `p * k`-th call (index `p * k - 1`)
is the one with `is_last_clip = true` (no earlier call sets it), it resets the
counter pair to `(0, 0)`, and from then on calls for any new video behave
exactly like a fresh instance's calls. -/
theorem constant_reset (d v : ℚ) (k p : ℕ) (hk : 1 ≤ k) (hp : 1 ≤ p) :
    (ConstantClipsPerVideoSampler.nth ⟨d, (p : ℤ), (k : ℤ)⟩ v
        (p * k - 1)).is_last_clip = true ∧
    (∀ n : ℕ, n < p * k - 1 →
      (ConstantClipsPerVideoSampler.nth ⟨d, (p : ℤ), (k : ℤ)⟩ v
        n).is_last_clip = false) ∧
    ConstantClipsPerVideoSampler.stateFrom ⟨d, (p : ℤ), (k : ℤ)⟩ (0, 0) v
        (p * k) = (0, 0) ∧
    (∀ (v2 : ℚ) (n : ℕ),
      ConstantClipsPerVideoSampler.stateFrom ⟨d, (p : ℤ), (k : ℤ)⟩
        (ConstantClipsPerVideoSampler.stateFrom ⟨d, (p : ℤ), (k : ℤ)⟩
          (0, 0) v (p * k)) v2 n =
      ConstantClipsPerVideoSampler.stateFrom ⟨d, (p : ℤ), (k : ℤ)⟩
        (0, 0) v2 n) := by
  obtain ⟨k2, rfl⟩ : ∃ k2, k = k2 + 1 := ⟨k - 1, by omega⟩
  obtain ⟨p2, rfl⟩ : ∃ p2, p = p2 + 1 := ⟨p - 1, by omega⟩
  have hsplit : (p2 + 1) * (k2 + 1) = p2 * (k2 + 1) + (k2 + 1) := by ring
  have hn0 : (p2 + 1) * (k2 + 1) - 1 = k2 + p2 * (k2 + 1) := by omega
  have hmod : ((p2 + 1) * (k2 + 1) - 1) % (k2 + 1) = k2 := by
    rw [hn0, Nat.add_mul_mod_self_right, Nat.mod_eq_of_lt (by omega)]
  have hdiv : ((p2 + 1) * (k2 + 1) - 1) / (k2 + 1) = p2 := by
    rw [hn0, Nat.add_mul_div_right _ _ (by omega : 0 < k2 + 1),
      Nat.div_eq_of_lt (by omega), Nat.zero_add]
  have hmodp : p2 % (p2 + 1) = p2 := Nat.mod_eq_of_lt (by omega)
  have hstate : ConstantClipsPerVideoSampler.stateFrom
      ⟨d, ((p2 + 1 : ℕ) : ℤ), ((k2 + 1 : ℕ) : ℤ)⟩ (0, 0) v
      ((p2 + 1) * (k2 + 1)) = (0, 0) := by
    rw [constant_stateFrom_closed d v (k2 + 1) (p2 + 1) (by omega) (by omega),
      Nat.mul_mod_left, Nat.mul_div_cancel _ (by omega : 0 < k2 + 1),
      Nat.mod_self]
    simp
  refine ⟨?_, ?_, hstate, ?_⟩
  · rw [constant_nth_closed d v (k2 + 1) (p2 + 1) (by omega) (by omega),
      hmod, hdiv, hmodp]
    simp
  · intro n hn
    rw [constant_nth_closed d v (k2 + 1) (p2 + 1) (by omega) (by omega)]
    refine decide_eq_false ?_
    rintro ⟨ha, hb⟩
    have hd1 := Nat.div_add_mod n (k2 + 1)
    have hc1 : (k2 + 1) * (n / (k2 + 1)) = (n / (k2 + 1)) * (k2 + 1) :=
      Nat.mul_comm _ _
    have hm1 : (n / (k2 + 1) + 1) * (k2 + 1) =
        (n / (k2 + 1)) * (k2 + 1) + (k2 + 1) := by ring
    have e1 : n + 1 = (n / (k2 + 1) + 1) * (k2 + 1) := by omega
    have hd2 := Nat.div_add_mod (n / (k2 + 1)) (p2 + 1)
    have hc2 : (p2 + 1) * (n / (k2 + 1) / (p2 + 1)) =
        (n / (k2 + 1) / (p2 + 1)) * (p2 + 1) := Nat.mul_comm _ _
    have hm2 : (n / (k2 + 1) / (p2 + 1) + 1) * (p2 + 1) =
        (n / (k2 + 1) / (p2 + 1)) * (p2 + 1) + (p2 + 1) := by ring
    have e2 : n / (k2 + 1) + 1 = (n / (k2 + 1) / (p2 + 1) + 1) * (p2 + 1) := by
      omega
    have e3 : n + 1 =
        (n / (k2 + 1) / (p2 + 1) + 1) * ((p2 + 1) * (k2 + 1)) := by
      rw [e1, e2]
      ring
    have hX : 0 < n / (k2 + 1) / (p2 + 1) + 1 := Nat.succ_pos _
    have hge : (p2 + 1) * (k2 + 1) ≤ n + 1 := by
      rw [e3]
      exact Nat.le_mul_of_pos_left _ hX
    have hpos : 0 < (p2 + 1) * (k2 + 1) := Nat.mul_pos (by omega) (by omega)
    generalize hA : (p2 + 1) * (k2 + 1) = A at hge hn hpos
    omega
  · intro v2 n
    rw [hstate]

/-- Witness for C5 at `clip_duration = 1`, `video_duration = 3`,
`augs_per_clip = 2`, `clips_per_video = 2`. -/
theorem constant_reset_witness :
    ((1 : ℕ) ≤ 2 ∧ (1 : ℕ) ≤ 2) ∧
    ((ConstantClipsPerVideoSampler.nth ⟨1, (2 : ℤ), (2 : ℤ)⟩ 3
        (2 * 2 - 1)).is_last_clip = true ∧
     (∀ n : ℕ, n < 2 * 2 - 1 →
       (ConstantClipsPerVideoSampler.nth ⟨1, (2 : ℤ), (2 : ℤ)⟩ 3
         n).is_last_clip = false) ∧
     ConstantClipsPerVideoSampler.stateFrom ⟨1, (2 : ℤ), (2 : ℤ)⟩ (0, 0) 3
        (2 * 2) = (0, 0) ∧
     (∀ (v2 : ℚ) (n : ℕ),
       ConstantClipsPerVideoSampler.stateFrom ⟨1, (2 : ℤ), (2 : ℤ)⟩
         (ConstantClipsPerVideoSampler.stateFrom ⟨1, (2 : ℤ), (2 : ℤ)⟩
           (0, 0) 3 (2 * 2)) v2 n =
       ConstantClipsPerVideoSampler.stateFrom ⟨1, (2 : ℤ), (2 : ℤ)⟩
         (0, 0) v2 n)) :=
  ⟨by decide, constant_reset 1 3 2 2 (by decide) (by decide)⟩

/-- Counterexample to claim C8 as stated: a `ConstantClipsPerVideoSampler`
constructed with `clips_per_video = 0` does not return a `ClipInfo` — the
division `max_possible_clip_start / clips_per_video` raises
`ZeroDivisionError` (modelled as `none`), already on the first call. -/
theorem constant_call_zero_raises :
    ConstantClipsPerVideoSampler.call ⟨1, 0, 1⟩ (0, 0) 1 = none := rfl

/-- Claim C8 (amended): a `ConstantClipsPerVideoSampler` call returns a
`ClipInfo` without raising exactly when `clips_per_video ≠ 0`, for every
state and input — in particular negative `clips_per_video`, non-positive
`augs_per_clip` and non-positive `clip_duration` never raise (and
`RandomClipSampler.call` is a total function of its inputs, with no fallible
operation in its body). -/
theorem constant_call_no_raise (d : ℚ) (cpv k : ℤ) (s : ℤ × ℤ) (v : ℚ) :
    (ConstantClipsPerVideoSampler.call ⟨d, cpv, k⟩ s v).isSome =
      decide (cpv ≠ 0) := by
  by_cases h : cpv = 0 <;> simp [ConstantClipsPerVideoSampler.call, h]

/-- Claim C6: every `RandomClipSampler` call, for any drawn unit value
`u ∈ [0, 1]`, returns `0 ≤ clip_start_sec ≤ max (video_duration -
clip_duration) 0`, an interval of exact length `clip_duration`,
`clip_index = 0`, `aug_index = 0`, `is_last_clip = true`; and the result does
not depend on `last_clip_time` or the annotation argument. -/
theorem random_bounds {α β : Type} (c : RandomClipSampler) (l v : ℚ)
    (ann : α) (u : ℚ) (h0 : 0 ≤ u) (h1 : u ≤ 1) :
    0 ≤ (c.call l v ann u).clip_start_sec ∧
    (c.call l v ann u).clip_start_sec ≤ max (v - c.clip_duration) 0 ∧
    (c.call l v ann u).clip_end_sec - (c.call l v ann u).clip_start_sec =
      c.clip_duration ∧
    (c.call l v ann u).clip_index = 0 ∧
    (c.call l v ann u).aug_index = 0 ∧
    (c.call l v ann u).is_last_clip = true ∧
    (∀ (l2 : ℚ) (ann2 : β), c.call l2 v ann2 u = c.call l v ann u) := by
  have hm : (0 : ℚ) ≤ max (v - c.clip_duration) 0 := le_max_right _ _
  refine ⟨?_, ?_, ?_, rfl, rfl, rfl, fun l2 ann2 => rfl⟩
  · show (0 : ℚ) ≤ 0 + (max (v - c.clip_duration) 0 - 0) * u
    have := mul_nonneg hm h0
    linarith
  · show 0 + (max (v - c.clip_duration) 0 - 0) * u ≤
      max (v - c.clip_duration) 0
    nlinarith
  · show (0 + (max (v - c.clip_duration) 0 - 0) * u + c.clip_duration) -
      (0 + (max (v - c.clip_duration) 0 - 0) * u) = c.clip_duration
    ring

/-- Witness for C6 at `clip_duration = 1`, `video_duration = 3`, `u = 1/2`. -/
theorem random_bounds_witness :
    ((0 : ℚ) ≤ 1/2 ∧ (1 : ℚ)/2 ≤ 1) ∧
    (0 ≤ (RandomClipSampler.call ⟨1⟩ 0 3 (0 : ℕ) (1/2)).clip_start_sec ∧
     (RandomClipSampler.call ⟨1⟩ 0 3 (0 : ℕ) (1/2)).clip_start_sec ≤
       max ((3 : ℚ) - 1) 0 ∧
     (RandomClipSampler.call ⟨1⟩ 0 3 (0 : ℕ) (1/2)).clip_end_sec -
       (RandomClipSampler.call ⟨1⟩ 0 3 (0 : ℕ) (1/2)).clip_start_sec = 1 ∧
     (RandomClipSampler.call ⟨1⟩ 0 3 (0 : ℕ) (1/2)).clip_index = 0 ∧
     (RandomClipSampler.call ⟨1⟩ 0 3 (0 : ℕ) (1/2)).aug_index = 0 ∧
     (RandomClipSampler.call ⟨1⟩ 0 3 (0 : ℕ) (1/2)).is_last_clip = true ∧
     (∀ (l2 : ℚ) (ann2 : ℕ), RandomClipSampler.call ⟨1⟩ l2 3 ann2 (1/2) =
       RandomClipSampler.call ⟨1⟩ 0 3 (0 : ℕ) (1/2))) :=
  ⟨⟨by norm_num, by norm_num⟩,
   random_bounds ⟨1⟩ 0 3 (0 : ℕ) (1/2) (by norm_num) (by norm_num)⟩

/-- With `stride = clip_duration` and no backpadding, `clip_start_end` is the
identity window `[l, l + d)` for any nonnegative `l`. -/
lemma uniform_clip_start_end_nostride (d v e l : ℚ) (hd : 0 ≤ d)
    (hl : 0 ≤ l) :
    UniformClipSampler.clip_start_end ⟨d, d, false, e⟩ l v false = (l, l + d) := by
  unfold UniformClipSampler.clip_start_end
  rw [if_neg Bool.false_ne_true]
  dsimp only
  rw [sub_self, max_self, sub_zero, max_eq_left hl]

/-- With `stride = clip_duration` and no backpadding, the driver's fed-back
`last_clip_time` before call `n` is exactly `n * clip_duration`. -/
lemma uniform_lastTime_nostride (d v e : ℚ) (hd : 0 ≤ d) (n : ℕ) :
    UniformClipSampler.lastTime ⟨d, d, false, e⟩ v n = (n : ℚ) * d := by
  induction n with
  | zero => simp [UniformClipSampler.lastTime]
  | succ m ih =>
      rw [UniformClipSampler.lastTime, ih]
      have h := uniform_clip_start_end_nostride d v e ((m : ℚ) * d) hd
        (mul_nonneg (Nat.cast_nonneg m) hd)
      rw [show (⟨d, d, false, e⟩ : UniformClipSampler).backpad_last = false
        from rfl, h]
      push_cast
      ring

/-- Closed form of the `n`-th output of a fresh no-backpad `UniformClipSampler`
with `stride = clip_duration`: the window is `[n*d, (n+1)*d)` and
`is_last_clip` fires iff the unclamped next end `(n+2)*d` overshoots. -/
lemma uniform_nth_nostride (d v e : ℚ) (hd : 0 ≤ d) (n : ℕ) :
    UniformClipSampler.nth ⟨d, d, false, e⟩ v n =
      ⟨(n : ℚ) * d, (n : ℚ) * d + d, (n : ℤ), 0,
        decide (v < ((n : ℚ) + 2) * d)⟩ := by
  have hl0 : (0 : ℚ) ≤ (n : ℚ) * d := mul_nonneg (Nat.cast_nonneg n) hd
  have hl1 : (0 : ℚ) ≤ (n : ℚ) * d + d := by linarith
  unfold UniformClipSampler.nth UniformClipSampler.call
  rw [show (⟨d, d, false, e⟩ : UniformClipSampler).backpad_last = false
    from rfl]
  rw [uniform_lastTime_nostride d v e hd n,
    uniform_clip_start_end_nostride d v e _ hd hl0]
  dsimp only
  rw [uniform_clip_start_end_nostride d v e _ hd hl1]
  rw [if_neg Bool.false_ne_true]
  dsimp only
  rw [show (n : ℚ) * d + d + d = ((n : ℚ) + 2) * d from by ring]

/-- Claim C3 (amended): for `video_duration ≥ clip_duration > 0`,
`stride = clip_duration` and no backpadding, the driver sequence consists of
the consecutive abutting windows `[n*d, (n+1)*d)` (indices `n`, `aug_index`
0) with no gaps or overlaps; `is_last_clip` holds exactly from the first
index `N` on, so it is true exactly once in the emitted sequence `0..N`; all
emitted windows lie inside `[0, video_duration]`, and their union
`[0, (N+1)*d)` covers all of `[0, video_duration)` iff `video_duration` is an
integer multiple of `clip_duration` (otherwise an uncovered tail shorter than
one clip remains). -/
theorem uniform_tiling (d v e : ℚ) (hd : 0 < d) (hdv : d ≤ v) :
    ∃ N : ℕ,
      (∀ n : ℕ,
        ((UniformClipSampler.nth ⟨d, d, false, e⟩ v n).is_last_clip = true ↔
          N ≤ n)) ∧
      (∀ n : ℕ,
        (UniformClipSampler.nth ⟨d, d, false, e⟩ v n).clip_start_sec =
          (n : ℚ) * d ∧
        (UniformClipSampler.nth ⟨d, d, false, e⟩ v n).clip_end_sec =
          (n : ℚ) * d + d ∧
        (UniformClipSampler.nth ⟨d, d, false, e⟩ v n).clip_index = (n : ℤ) ∧
        (UniformClipSampler.nth ⟨d, d, false, e⟩ v n).aug_index = 0) ∧
      ((N : ℚ) + 1) * d ≤ v ∧ v < ((N : ℚ) + 2) * d ∧
      ((∃ m : ℕ, v = (m : ℚ) * d) ↔ ((N : ℚ) + 1) * d = v) := by
  have hex : ∃ n : ℕ, v < ((n : ℚ) + 2) * d := by
    obtain ⟨n, hn⟩ := exists_nat_ge (v / d)
    refine ⟨n, ?_⟩
    have hv : v ≤ (n : ℚ) * d := by
      rw [div_le_iff₀ hd] at hn
      exact hn
    nlinarith
  classical
  refine ⟨Nat.find hex, fun n => ?_, fun n => ?_, ?_, Nat.find_spec hex, ?_⟩
  · rw [uniform_nth_nostride d v e hd.le n]
    simp only [decide_eq_true_eq]
    constructor
    · intro h
      exact Nat.find_min' hex h
    · intro h
      have hmono : ((Nat.find hex : ℚ) + 2) * d ≤ ((n : ℚ) + 2) * d := by
        have : ((Nat.find hex : ℚ)) ≤ (n : ℚ) := by exact_mod_cast h
        nlinarith
      exact lt_of_lt_of_le (Nat.find_spec hex) hmono
  · rw [uniform_nth_nostride d v e hd.le n]
    exact ⟨rfl, rfl, rfl, rfl⟩
  · rcases Nat.eq_zero_or_pos (Nat.find hex) with h0 | hpos
    · rw [h0]
      push_cast
      linarith
    · have hmin := Nat.find_min hex (m := Nat.find hex - 1) (by omega)
      rw [not_lt] at hmin
      have hcast : ((Nat.find hex - 1 : ℕ) : ℚ) + 2 = (Nat.find hex : ℚ) + 1 := by
        have : ((Nat.find hex - 1 : ℕ) : ℚ) = (Nat.find hex : ℚ) - 1 := by
          have h1 : (1 : ℕ) ≤ Nat.find hex := hpos
          push_cast [Nat.cast_sub h1]
          ring
        rw [this]
        ring
      rw [hcast] at hmin
      exact hmin
  · constructor
    · rintro ⟨m, rfl⟩
      have hfind := Nat.find_spec hex
      have h1 : ((Nat.find hex : ℚ) + 1) * d ≤ (m : ℚ) * d := by
        rcases Nat.eq_zero_or_pos (Nat.find hex) with h0 | hpos
        · rw [h0]
          push_cast
          linarith
        · have hmin := Nat.find_min hex (m := Nat.find hex - 1) (by omega)
          rw [not_lt] at hmin
          have h1 : (1 : ℕ) ≤ Nat.find hex := hpos
          have : ((Nat.find hex - 1 : ℕ) : ℚ) = (Nat.find hex : ℚ) - 1 := by
            push_cast [Nat.cast_sub h1]
            ring
          rw [this] at hmin
          nlinarith
      have hle : (Nat.find hex) + 1 ≤ m := by
        have := (mul_le_mul_right hd).mp h1
        exact_mod_cast this
      have hlt : m < Nat.find hex + 2 := by
        have := (mul_lt_mul_right hd).mp hfind
        exact_mod_cast this
      have hmq : (m : ℚ) = (Nat.find hex : ℚ) + 1 := by
        exact_mod_cast (by omega : m = Nat.find hex + 1)
      linear_combination (-d) * hmq
    · intro h
      exact ⟨Nat.find hex + 1, by push_cast; linarith [h]⟩

/-- Witness for C3 at `clip_duration = 1`, `video_duration = 3`. -/
theorem uniform_tiling_witness :
    ((0 : ℚ) < 1 ∧ (1 : ℚ) ≤ 3) ∧
    (∃ N : ℕ,
      (∀ n : ℕ,
        ((UniformClipSampler.nth ⟨1, 1, false, 1/1000000⟩ 3 n).is_last_clip =
          true ↔ N ≤ n)) ∧
      (∀ n : ℕ,
        (UniformClipSampler.nth ⟨1, 1, false, 1/1000000⟩ 3 n).clip_start_sec =
          (n : ℚ) * 1 ∧
        (UniformClipSampler.nth ⟨1, 1, false, 1/1000000⟩ 3 n).clip_end_sec =
          (n : ℚ) * 1 + 1 ∧
        (UniformClipSampler.nth ⟨1, 1, false, 1/1000000⟩ 3 n).clip_index =
          (n : ℤ) ∧
        (UniformClipSampler.nth ⟨1, 1, false, 1/1000000⟩ 3 n).aug_index = 0) ∧
      ((N : ℚ) + 1) * 1 ≤ 3 ∧ (3 : ℚ) < ((N : ℚ) + 2) * 1 ∧
      ((∃ m : ℕ, (3 : ℚ) = (m : ℚ) * 1) ↔ ((N : ℚ) + 1) * 1 = 3)) :=
  ⟨⟨by norm_num, by norm_num⟩,
   uniform_tiling 1 3 (1/1000000) (by norm_num) (by norm_num)⟩

/-- Counterexample to claim C3 as stated: with `clip_duration = stride = 1`
and `video_duration = 7/2`, the driver sequence ends at clip 2 (`is_last_clip`
there), yet the point `13/4 ∈ [0, 7/2)` lies in none of the emitted windows —
the emitted clips do not tile `[0, video_duration)`. -/
theorem uniform_tiling_counterexample :
    ((UniformClipSampler.nth ⟨1, 1, false, 1/1000000⟩ (7/2) 0).is_last_clip =
      false ∧
     (UniformClipSampler.nth ⟨1, 1, false, 1/1000000⟩ (7/2) 1).is_last_clip =
      false ∧
     (UniformClipSampler.nth ⟨1, 1, false, 1/1000000⟩ (7/2) 2).is_last_clip =
      true) ∧
    ((0 : ℚ) ≤ 13/4 ∧ (13 : ℚ)/4 < 7/2) ∧
    (∀ n : ℕ, n ≤ 2 →
      ¬((UniformClipSampler.nth ⟨1, 1, false, 1/1000000⟩ (7/2)
          n).clip_start_sec ≤ 13/4 ∧
        (13 : ℚ)/4 <
          (UniformClipSampler.nth ⟨1, 1, false, 1/1000000⟩ (7/2)
            n).clip_end_sec)) := by
  refine ⟨⟨?_, ?_, ?_⟩, ⟨by norm_num, by norm_num⟩, ?_⟩
  · rw [uniform_nth_nostride 1 (7/2) (1/1000000) (by norm_num) 0]
    norm_num
  · rw [uniform_nth_nostride 1 (7/2) (1/1000000) (by norm_num) 1]
    norm_num
  · rw [uniform_nth_nostride 1 (7/2) (1/1000000) (by norm_num) 2]
    norm_num
  · intro n hn
    interval_cases n <;>
      rw [uniform_nth_nostride 1 (7/2) (1/1000000) (by norm_num)] <;>
      norm_num

/-- One backpadded step from a fed-back time `l` with `d ≤ l ≤ v`: the new
clip end is `min (l + stride) video_duration` — the window advances by the
stride until it saturates at the video end. -/
lemma uniform_clip_start_end_backpad (d s e v l : ℚ) (hs : 0 < s)
    (hsd : s ≤ d) (hdv : d ≤ v) (hl1 : d ≤ l) (hl2 : l ≤ v) :
    (UniformClipSampler.clip_start_end ⟨d, s, true, e⟩ l v true).2 =
      min (l + s) v := by
  unfold UniformClipSampler.clip_start_end
  dsimp only
  rw [if_pos rfl]
  dsimp only
  have h0 : max (0 : ℚ) (d - s) = d - s := max_eq_right (by linarith)
  rw [h0]
  have h1 : max (l - (d - s)) 0 = l - (d - s) := max_eq_left (by linarith)
  rw [h1]
  by_cases hc : l - (d - s) + d ≤ v
  · have h2 : max (0 : ℚ) (l - (d - s) + d - v) = 0 := max_eq_left (by linarith)
    rw [h2, sub_zero]
    have h3 : max (0 : ℚ) (l - (d - s)) = l - (d - s) :=
      max_eq_right (by linarith)
    rw [h3, show l - (d - s) + d = l + s from by ring,
      min_eq_left (by linarith)]
  · push_neg at hc
    have h2 : max (0 : ℚ) (l - (d - s) + d - v) = l - (d - s) + d - v :=
      max_eq_right (by linarith)
    rw [h2, show l - (d - s) - (l - (d - s) + d - v) = v - d from by ring]
    have h3 : max (0 : ℚ) (v - d) = v - d := max_eq_right (by linarith)
    rw [h3, show v - d + d = v from by ring,
      min_eq_right (by linarith : v ≤ l + s)]

/-- Closed form of the backpadded driver trace: the `clip_end_sec` fed back
before call `n + 1` is `min (clip_duration + n * stride) video_duration`. -/
lemma uniform_lastTime_backpad (d s e v : ℚ) (hs : 0 < s) (hsd : s ≤ d)
    (hdv : d ≤ v) (n : ℕ) :
    UniformClipSampler.lastTime ⟨d, s, true, e⟩ v (n + 1) =
      min (d + (n : ℚ) * s) v := by
  induction n with
  | zero =>
      rw [UniformClipSampler.lastTime, UniformClipSampler.lastTime]
      unfold UniformClipSampler.clip_start_end
      dsimp only
      rw [if_pos rfl]
      dsimp only
      have h0 : max (0 : ℚ) (d - s) = d - s := max_eq_right (by linarith)
      rw [h0]
      have h1 : max (0 - (d - s)) 0 = 0 := max_eq_right (by linarith)
      rw [h1, zero_add]
      have h2 : max (0 : ℚ) (d - v) = 0 := max_eq_left (by linarith)
      rw [h2, sub_zero]
      have h3 : max (0 : ℚ) 0 = 0 := max_self 0
      rw [h3, zero_add]
      rw [show ((0 : ℕ) : ℚ) * s = 0 from by push_cast; ring, add_zero,
        min_eq_left hdv]
  | succ m ih =>
      rw [UniformClipSampler.lastTime, ih]
      have hl1 : d ≤ min (d + (m : ℚ) * s) v :=
        le_min (by nlinarith [Nat.cast_nonneg (α := ℚ) m]) hdv
      have hl2 : min (d + (m : ℚ) * s) v ≤ v := min_le_right _ _
      rw [show (⟨d, s, true, e⟩ : UniformClipSampler).backpad_last = true
        from rfl]
      rw [uniform_clip_start_end_backpad d s e v _ hs hsd hdv hl1 hl2]
      by_cases hc : d + (m : ℚ) * s ≤ v
      · rw [min_eq_left hc,
          show d + (m : ℚ) * s + s = d + ((m : ℚ) + 1) * s from by ring,
          show ((m + 1 : ℕ) : ℚ) = (m : ℚ) + 1 from by push_cast; ring]
      · push_neg at hc
        rw [min_eq_right (le_of_lt hc),
          min_eq_right (by linarith : v ≤ v + s),
          min_eq_right (by push_cast; nlinarith : v ≤ d + ((m + 1 : ℕ) : ℚ) * s)]

/-- The `clip_end_sec` of the `n`-th clip is the next fed-back time. -/
lemma uniform_nth_end (c : UniformClipSampler) (v : ℚ) (n : ℕ) :
    (c.nth v n).clip_end_sec = c.lastTime v (n + 1) := rfl

/-- With backpadding, the `n`-th `is_last_clip` compares the following two
fed-back times against `eps`. -/
lemma uniform_nth_is_last_backpad (d s e v : ℚ) (n : ℕ) :
    (UniformClipSampler.nth ⟨d, s, true, e⟩ v n).is_last_clip =
      decide (|UniformClipSampler.lastTime ⟨d, s, true, e⟩ v (n + 1 + 1) -
        UniformClipSampler.lastTime ⟨d, s, true, e⟩ v (n + 1)| < e) := rfl

/-- Claim C7 (amended): with `backpad_last = true`, a valid configuration
`0 < stride ≤ clip_duration`, tolerance `0 < eps ≤ stride`, and
`video_duration ≥ clip_duration`, the driver sequence reaches a first clip
with `is_last_clip = true`, and that final emitted clip's `clip_end_sec`
equals `video_duration` within `eps`. -/
theorem uniform_backpad_final (d s e v : ℚ) (hs : 0 < s) (hsd : s ≤ d)
    (he : 0 < e) (hes : e ≤ s) (hdv : d ≤ v) :
    ∃ N : ℕ,
      (∀ m : ℕ, m < N →
        (UniformClipSampler.nth ⟨d, s, true, e⟩ v m).is_last_clip = false) ∧
      (UniformClipSampler.nth ⟨d, s, true, e⟩ v N).is_last_clip = true ∧
      |(UniformClipSampler.nth ⟨d, s, true, e⟩ v N).clip_end_sec - v| < e := by
  have hE : ∀ n : ℕ, UniformClipSampler.lastTime ⟨d, s, true, e⟩ v (n + 1) =
      min (d + (n : ℚ) * s) v := uniform_lastTime_backpad d s e v hs hsd hdv
  have hex : ∃ n : ℕ,
      (UniformClipSampler.nth ⟨d, s, true, e⟩ v n).is_last_clip = true := by
    obtain ⟨n, hn⟩ := exists_nat_ge ((v - d) / s)
    refine ⟨n, ?_⟩
    have hv : v - d ≤ (n : ℚ) * s := by
      rw [div_le_iff₀ hs] at hn
      exact hn
    rw [uniform_nth_is_last_backpad, hE (n + 1), hE n]
    have h1 : min (d + (n : ℚ) * s) v = v := min_eq_right (by linarith)
    have h2 : min (d + ((n + 1 : ℕ) : ℚ) * s) v = v :=
      min_eq_right (by push_cast; nlinarith)
    rw [h1, h2, sub_self, abs_zero]
    exact decide_eq_true he
  classical
  refine ⟨Nat.find hex, fun m hm => ?_, Nat.find_spec hex, ?_⟩
  · exact Bool.eq_false_iff.mpr (Nat.find_min hex hm)
  · have hlast := Nat.find_spec hex
    rw [uniform_nth_is_last_backpad, hE (Nat.find hex + 1), hE (Nat.find hex),
      decide_eq_true_eq] at hlast
    rw [uniform_nth_end, hE (Nat.find hex)]
    by_cases hc : v ≤ d + ((Nat.find hex : ℕ) : ℚ) * s
    · rw [min_eq_right hc, sub_self, abs_zero]
      exact he
    · push_neg at hc
      rw [min_eq_left (le_of_lt hc)]
      rw [min_eq_left (le_of_lt hc)] at hlast
      by_cases hc2 : d + ((Nat.find hex + 1 : ℕ) : ℚ) * s ≤ v
      · rw [min_eq_left hc2,
          show d + ((Nat.find hex + 1 : ℕ) : ℚ) * s -
            (d + ((Nat.find hex : ℕ) : ℚ) * s) = s from by push_cast; ring,
          abs_of_pos hs] at hlast
        linarith
      · push_neg at hc2
        rw [min_eq_right (le_of_lt hc2), abs_sub_comm] at hlast
        exact hlast

/-- Witness for C7 (amended) at `clip_duration = stride = 1`,
`eps = 1/1000000`, `video_duration = 2`. -/
theorem uniform_backpad_final_witness :
    ((0 : ℚ) < 1 ∧ (1 : ℚ) ≤ 1 ∧ (0 : ℚ) < 1/1000000 ∧
      (1 : ℚ)/1000000 ≤ 1 ∧ (1 : ℚ) ≤ 2) ∧
    (∃ N : ℕ,
      (∀ m : ℕ, m < N →
        (UniformClipSampler.nth ⟨1, 1, true, 1/1000000⟩ 2 m).is_last_clip =
          false) ∧
      (UniformClipSampler.nth ⟨1, 1, true, 1/1000000⟩ 2 N).is_last_clip =
        true ∧
      |(UniformClipSampler.nth ⟨1, 1, true, 1/1000000⟩ 2 N).clip_end_sec -
        2| < 1/1000000) :=
  ⟨⟨by norm_num, by norm_num, by norm_num, by norm_num, by norm_num⟩,
   uniform_backpad_final 1 1 (1/1000000) 2 (by norm_num) (by norm_num)
     (by norm_num) (by norm_num) (by norm_num)⟩

/-- Counterexample to claim C7 as stated: with `clip_duration = stride = 1`,
`eps = 1/1000000` and `video_duration = 1/2 > 0`, the very first clip has
`is_last_clip = true` but ends at `1`, which is not within `eps` of the video
duration `1/2`. -/
theorem uniform_backpad_counterexample :
    (UniformClipSampler.nth ⟨1, 1, true, 1/1000000⟩ (1/2) 0).is_last_clip =
      true ∧
    ¬(|(UniformClipSampler.nth ⟨1, 1, true, 1/1000000⟩ (1/2) 0).clip_end_sec -
        1/2| < (1 : ℚ)/1000000) := by
  constructor
  · with_unfolding_all decide
  · with_unfolding_all decide
